import Mathlib

/-!
Shallow embedding of the chunking / chunk-processing core of the
`agc-library` repository (`agentCore/chunking/text_chunker.py` and
`agentCore/chunking/chunk_processor.py`), together with theorems settling
the specification claims about it.

Python strings are modelled as `List Char`; Python `None`-able values as
`Option`; a transformation that may raise is modelled as a function into
`Except Str α` (the `error` payload being `str(exception)`).  The
tokenizer (external `tiktoken` library) is modelled abstractly: a token is
identified with the character sequence it decodes to, so `decode` of a
token list is concatenation.
-/

set_option maxHeartbeats 1000000

abbrev Str := List Char

/-- Character model of Python `str.isspace()` / `\s` restricted to ASCII
whitespace (the texts in this development are ASCII). -/
def isPySpace (c : Char) : Bool :=
  c == ' ' || c == '\t' || c == '\n' || c == '\r' || c == '\x0b' || c == '\x0c'

/-- Sentence-terminating characters, the class `[.!?]`. -/
def isSentEnd (c : Char) : Bool :=
  c == '.' || c == '!' || c == '?'

/-- Python `s.strip()`: remove leading and trailing whitespace. -/
def strip (s : Str) : Str :=
  ((s.dropWhile isPySpace).reverse.dropWhile isPySpace).reverse

/-- The non-whitespace characters of a string, in order. -/
def nonWs (s : Str) : Str :=
  s.filter (fun c => !(isPySpace c))

/-- Decimal representation of a `Nat` as a character list (for chunk ids). -/
def natStr (n : Nat) : Str := (Nat.repr n).data

/-- Abstract tokenizer model: `encode` splits a text into tokens, each token
being represented by the character sequence it decodes back to, so that
`decode toks = toks.flatten`.  This models the external `tiktoken` encoder,
which maps text to token ids whose decodings concatenate. -/
structure Tokenizer where
  encode : Str → List Str

/-- The `ChunkingStrategy` enum from `text_chunker.py`. -/
inductive ChunkingStrategy where
  | FIXED_SIZE | SENTENCE | PARAGRAPH | SEMANTIC | ADAPTIVE | TOKEN_BASED
deriving DecidableEq, Repr

/-- Metadata mapping: modelled as an association list of string pairs
(`{**metadata, k: v}` becomes `metadata ++ [(k, v)]`, lookups right-biased). -/
abbrev Meta := List (Str × Str)

/-- The `Chunk` dataclass from `text_chunker.py`, all fields included. -/
structure Chunk where
  id : Str
  content : Str
  start_index : Nat
  end_index : Nat
  metadata : Meta
  token_count : Option Nat := none
  overlap_with_previous : Bool := false
deriving DecidableEq, Repr

instance : Inhabited Chunk :=
  ⟨{ id := [], content := [], start_index := 0, end_index := 0, metadata := [] }⟩

/-- The `ChunkingResult` dataclass from `text_chunker.py`. -/
structure ChunkingResult where
  chunks : List Chunk
  total_chunks : Nat
  strategy_used : ChunkingStrategy
  original_length : Nat
  total_tokens : Nat
  metadata : Meta
deriving DecidableEq, Repr

/-- The `TextChunker` configuration (constructor state): `chunk_size`, `overlap`
and the tokenizer obtained from `model_name`. -/
structure TextChunker where
  chunk_size : Nat
  overlap : Nat
  tokenizer : Tokenizer

/-! ## ChunkProcessor data model (`chunk_processor.py`) -/

/-- The `ProcessedChunk` dataclass.  `processed_content` is `None` on failure;
`error_message = str(exception)` on failure.  The wall-clock
`processing_time_ms` field is not modelled (real time). -/
structure ProcessedChunk (α : Type) where
  original_chunk : Chunk
  processed_content : Option α
  success : Bool
  error_message : Option Str := none
deriving DecidableEq, Repr

/-- The `ChunkProcessingResult` dataclass (minus the wall-clock
`total_processing_time_ms`). -/
structure ChunkProcessingResult (α : Type) where
  processed_chunks : List (ProcessedChunk α)
  successful_count : Nat
  failed_count : Nat
  aggregated_result : Option α := none
deriving DecidableEq, Repr

/-- The body shared by the sequential loop and `process_single_chunk` in
`process_chunks_parallel`: run `processor_func` on one chunk, catching the
exception into a failed `ProcessedChunk`. -/
def processSingle {α : Type} (f : Chunk → Except Str α) (c : Chunk) :
    ProcessedChunk α :=
  match f c with
  | Except.ok v =>
      { original_chunk := c, processed_content := some v, success := true,
        error_message := none }
  | Except.error e =>
      { original_chunk := c, processed_content := none, success := false,
        error_message := some e }

/-- Definition of `successful_count = sum(1 for pc in processed_chunks if pc.success)`. -/
def countSuccess {α : Type} (l : List (ProcessedChunk α)) : Nat :=
  (l.filter (fun pc => pc.success)).length

/-- Definition of `failed_count = sum(1 for pc in processed_chunks if not pc.success)`. -/
def countFailed {α : Type} (l : List (ProcessedChunk α)) : Nat :=
  (l.filter (fun pc => !pc.success)).length

/-- Embedding of `ChunkProcessor.process_chunks_sequential` (progress callback elided:
it is invoked in input order and does not influence the result). -/
def process_chunks_sequential {α : Type} (f : Chunk → Except Str α)
    (chunks : List Chunk) : ChunkProcessingResult α :=
  let processed := chunks.map (processSingle f)
  { processed_chunks := processed,
    successful_count := countSuccess processed,
    failed_count := countFailed processed }

/-- Placeholder entry used for the (never taken) miss case of the
completed-results dictionary lookup in the parallel collector. -/
def dummyProcessed (α : Type) : ProcessedChunk α :=
  { original_chunk := default, processed_content := none, success := false }

/-- Embedding of `ChunkProcessor.process_chunks_parallel`.  The thread pool is modelled by
an explicit completion order `order` (the order in which
`concurrent.futures.as_completed` yields the futures); each future's value is
the deterministic `processSingle f` of its chunk.  `completed_results` is the
index-keyed dictionary, filled in completion order; the progress callback
trace (second component) records `(completed_count, total, latest_result)`
per completion; the final list is rebuilt in index order
(`[completed_results[i] for i in range(len(chunks))]`). -/
def process_chunks_parallel {α : Type} (f : Chunk → Except Str α)
    (chunks : List Chunk) (order : List Nat) :
    ChunkProcessingResult α × List (Nat × Nat × ProcessedChunk α) :=
  let n := chunks.length
  let completed : List (Nat × ProcessedChunk α) :=
    order.map (fun i => (i, processSingle f (chunks.getD i default)))
  let trace : List (Nat × Nat × ProcessedChunk α) :=
    completed.enum.map (fun p => (p.1 + 1, n, p.2.2))
  let processed : List (ProcessedChunk α) :=
    (List.range n).map (fun i => (completed.lookup i).getD (dummyProcessed α))
  ({ processed_chunks := processed,
     successful_count := countSuccess processed,
     failed_count := countFailed processed }, trace)

/-- The `ChunkProcessingResult` produced by `process_chunks_parallel`,
independent of the completion order (theorem `parallel_result_eq` below shows
every permutation completion order yields exactly this value); used to embed
the nested `process_chunks_parallel` calls of `process_with_retry`. -/
def parallelResult {α : Type} (f : Chunk → Except Str α)
    (chunks : List Chunk) : ChunkProcessingResult α :=
  let processed := chunks.map (processSingle f)
  { processed_chunks := processed,
    successful_count := countSuccess processed,
    failed_count := countFailed processed }

/-- Lookup `retry_dict[id]`: the dict comprehension
`{pc.original_chunk.id: pc for pc in retry_result.processed_chunks}` keeps the
*last* entry for a duplicated id, so lookup searches from the right. -/
def retryDictGet {α : Type} (retry : List (ProcessedChunk α)) (id : Str) :
    Option (ProcessedChunk α) :=
  retry.reverse.find? (fun pc => pc.original_chunk.id == id)

/-- One splice round of `process_with_retry`: every still-failed position
whose `original_chunk.id` is a key of the retry dict is overwritten with the
dict entry. -/
def spliceRound {α : Type} (result retry : List (ProcessedChunk α)) :
    List (ProcessedChunk α) :=
  result.map (fun pc =>
    if !pc.success then
      match retryDictGet retry pc.original_chunk.id with
      | some rpc => rpc
      | none => pc
    else pc)

/-- The retry loop of `process_with_retry`: up to `max_retries` rounds; each
round collects the currently-failed chunks, stops early if none, reruns the
parallel pass on them (the per-round processor `f attempt` models a stateful
transform whose behaviour may change between attempts), splices, and
recomputes the counts.  `retry_delay` sleeping is real time, not modelled. -/
def retryLoop {α : Type} (f : Nat → Chunk → Except Str α) :
    Nat → Nat → ChunkProcessingResult α → ChunkProcessingResult α
  | 0, _, result => result
  | Nat.succ k, attempt, result =>
    let failed_chunks :=
      (result.processed_chunks.filter (fun pc => !pc.success)).map
        (fun pc => pc.original_chunk)
    if failed_chunks.isEmpty then result
    else
      let retry_result := parallelResult (f attempt) failed_chunks
      let spliced := spliceRound result.processed_chunks
        retry_result.processed_chunks
      retryLoop f k (attempt + 1)
        { processed_chunks := spliced,
          successful_count := countSuccess spliced,
          failed_count := countFailed spliced,
          aggregated_result := result.aggregated_result }

/-- Embedding of `ChunkProcessor.process_with_retry`: initial parallel pass with the
attempt-0 transform, then the retry loop. -/
def process_with_retry {α : Type} (f : Nat → Chunk → Except Str α)
    (chunks : List Chunk) (max_retries : Nat) : ChunkProcessingResult α :=
  retryLoop f max_retries 1 (parallelResult (f 0) chunks)

/-- The list
`[pc.processed_content for pc in result.processed_chunks if pc.success and pc.processed_content is not None]`. -/
def successful_results {α : Type} (res : ChunkProcessingResult α) : List α :=
  res.processed_chunks.filterMap
    (fun pc => if pc.success then pc.processed_content else none)

/-- Embedding of `ChunkProcessor.aggregate_results`: aggregation runs only when there is at
least one successful content; an exception from `aggregation_func` is caught
and logged, leaving the result unchanged. -/
def aggregate_results {α : Type} (res : ChunkProcessingResult α)
    (aggregation_func : List α → Except Str α) : ChunkProcessingResult α :=
  let successful := successful_results res
  if successful.isEmpty then res
  else
    match aggregation_func successful with
    | Except.ok v => { res with aggregated_result := some v }
    | Except.error _ => res

/-! ## TextChunker (`text_chunker.py`) -/

/-- Embedding of `re.split` with pattern `(?<=[.!?])\s+` from `_chunk_by_sentence`: split at
every maximal whitespace run immediately preceded by a sentence-ending
character.  Single-pass scanner: `acc` holds the current piece reversed,
`skipping` is true while consuming the matched whitespace run. -/
def splitSentencesAux : Str → Str → Bool → List Str
  | [], acc, _ => [acc.reverse]
  | c :: rest, acc, skipping =>
    if skipping && isPySpace c then
      splitSentencesAux rest acc skipping
    else if !skipping && isPySpace c &&
        (match acc with | p :: _ => isSentEnd p | [] => false) then
      acc.reverse :: splitSentencesAux rest [] true
    else
      splitSentencesAux rest (c :: acc) false

def splitSentences (text : Str) : List Str := splitSentencesAux text [] false

/-- Embedding of `re.split` with pattern `[.!?]+` from `_analyze_text`: split at every maximal
run of sentence-ending characters; `skipping` is true while consuming a
separator run. -/
def splitSentEndsAux : Str → Str → Bool → List Str
  | [], acc, _ => [acc.reverse]
  | c :: rest, acc, skipping =>
    if skipping && isSentEnd c then
      splitSentEndsAux rest acc skipping
    else if isSentEnd c then
      acc.reverse :: splitSentEndsAux rest [] true
    else
      splitSentEndsAux rest (c :: acc) false

def splitSentEnds (text : Str) : List Str := splitSentEndsAux text [] false

/-- A maximal whitespace run `run` matches `\n\s*\n` (greedily) iff it
contains two distinct newlines; the match then covers the run from its first
newline to its last newline.  Returns the run's whitespace before the first
newline (which stays with the preceding piece) and after the last newline
(which starts the next piece). -/
def runSplit (run : Str) : Option (Str × Str) :=
  let idxs := (List.range run.length).filter (fun j => run.getD j ' ' == '\n')
  match idxs.head?, idxs.getLast? with
  | some i1, some i2 =>
    if i1 < i2 then some (run.take i1, run.drop (i2 + 1)) else none
  | _, _ => none

/-- Embedding of `re.split` with pattern `\n\s*\n` from `_chunk_by_paragraph` /
`_analyze_text`: a separator is a newline, then greedily `\s*`, then a
newline — i.e. a maximal whitespace run containing at least two newlines
splits (from its first to its last newline).  Single-pass scanner: `acc` is
the current piece so far, `run` buffers the pending whitespace run. -/
def splitParagraphsAux : Str → Str → Str → List Str
  | [], acc, run =>
    (match runSplit run with
     | some (pre, post) => [acc ++ pre, post]
     | none => [acc ++ run])
  | c :: rest, acc, run =>
    if isPySpace c then splitParagraphsAux rest acc (run ++ [c])
    else
      match runSplit run with
      | some (pre, post) =>
        (acc ++ pre) :: splitParagraphsAux rest (post ++ [c]) []
      | none => splitParagraphsAux rest (acc ++ run ++ [c]) []

def splitParagraphs (text : Str) : List Str := splitParagraphsAux text [] []

/-- Embedding of `text.rfind` over `[start, stop)`: absolute index of the last space in
`text[start:stop)`, if any. -/
def rfindSpace (text : Str) (start stop : Nat) : Option Nat :=
  ((List.range' start (stop - start)).filter
    (fun j => text.getD j 'x' == ' ')).getLast?

/-- The window-end adjustment of `_chunk_fixed_size`: if the window boundary
lands inside the text on a non-space character, retract to the last space in
the window, provided that space lies strictly after `start`. -/
def fixedEnd (text : Str) (start end0 : Nat) : Nat :=
  if end0 < text.length ∧ ¬ isPySpace (text.getD end0 ' ') then
    match rfindSpace text start end0 with
    | some j => if start < j then j else end0
    | none => end0
  else end0

/-- The `while start < len(text)` loop of `_chunk_fixed_size`.  Forward
progress is `start = max(end - overlap, start + 1)`, so the loop performs at
most `len(text) - start` iterations; `fuel` bounds them structurally (lemma
`chunkFixedAux_fuel_irrelevant` shows any fuel above that bound gives the
same value, so the definition below with ample fuel is the loop's exact
behaviour). -/
def chunkFixedAux (cfg : TextChunker) (meta : Meta) (text : Str) :
    Nat → Nat → Nat → List Chunk
  | 0, _, _ => []
  | Nat.succ fuel, start, chunk_id =>
    if start < text.length then
      let endAdj := fixedEnd text start (min (start + cfg.chunk_size) text.length)
      let content := (text.drop start).take (endAdj - start)
      { id := ('c' :: 'h' :: 'u' :: 'n' :: 'k' :: '_' :: natStr chunk_id),
        content := content,
        start_index := start,
        end_index := endAdj,
        metadata := meta ++ [("chunk_method".data, "fixed_size".data)],
        token_count := some (cfg.tokenizer.encode content).length,
        overlap_with_previous := decide (0 < start) && decide (0 < cfg.overlap) }
        :: chunkFixedAux cfg meta text fuel
            (max (endAdj - cfg.overlap) (start + 1)) (chunk_id + 1)
    else []

def chunk_fixed_size (cfg : TextChunker) (text : Str) (meta : Meta) :
    List Chunk :=
  chunkFixedAux cfg meta text (text.length + 1) 0 0

/-- Build one sentence chunk: content is the stripped buffer, offsets use the
unstripped buffer's length, token count is computed on the unstripped
buffer. -/
def mkSentChunk (cfg : TextChunker) (meta : Meta) (chunk_id : Nat)
    (current : Str) (start_index : Nat) : Chunk :=
  { id := ("sentence_chunk_".data ++ natStr chunk_id),
    content := strip current,
    start_index := start_index,
    end_index := start_index + current.length,
    metadata := meta ++ [("chunk_method".data, "sentence".data)],
    token_count := some (cfg.tokenizer.encode current).length }

/-- The sentence-accumulation loop of `_chunk_by_sentence`: flush the buffer
when appending the next sentence would exceed `chunk_size`; the overflowing
sentence starts the next buffer; flush the final buffer if non-empty. -/
def chunkBySentenceAux (cfg : TextChunker) (meta : Meta) :
    List Str → Str → Nat → Nat → List Chunk
  | [], current, start_index, chunk_id =>
    if current.isEmpty then []
    else [mkSentChunk cfg meta chunk_id current start_index]
  | s :: ss, current, start_index, chunk_id =>
    let potential := if current.isEmpty then s else current ++ ' ' :: s
    if cfg.chunk_size < potential.length ∧ ¬ current.isEmpty then
      mkSentChunk cfg meta chunk_id current start_index
        :: chunkBySentenceAux cfg meta ss s
            (start_index + current.length) (chunk_id + 1)
    else
      chunkBySentenceAux cfg meta ss potential start_index chunk_id

def chunk_by_sentence (cfg : TextChunker) (text : Str) (meta : Meta) :
    List Chunk :=
  chunkBySentenceAux cfg meta (splitSentences text) [] 0 0

/-- Re-identification of sentence sub-chunks inside `_chunk_by_paragraph`:
`para_chunk.id = f"para_chunk_{chunk_id}_{i}"`, offsets shifted by the
paragraph's absolute position. -/
def remapParaSub (chunk_id current_index : Nat) (sub : List Chunk) :
    List Chunk :=
  sub.enum.map (fun p =>
    { p.2 with
        id := ("para_chunk_".data ++ natStr chunk_id ++ '_' :: natStr p.1),
        start_index := p.2.start_index + current_index,
        end_index := p.2.end_index + current_index })

/-- The paragraph loop of `_chunk_by_paragraph`: strip each paragraph, skip
empty ones, emit small paragraphs whole, recursively sentence-chunk large
ones; `current_index` advances by the stripped length plus 2. -/
def chunkByParagraphAux (cfg : TextChunker) (meta : Meta) :
    List Str → Nat → Nat → List Chunk
  | [], _, _ => []
  | p :: ps, chunk_id, current_index =>
    let para := strip p
    if para.isEmpty then chunkByParagraphAux cfg meta ps chunk_id current_index
    else if para.length ≤ cfg.chunk_size then
      { id := ("para_chunk_".data ++ natStr chunk_id),
        content := para,
        start_index := current_index,
        end_index := current_index + para.length,
        metadata := meta ++ [("chunk_method".data, "paragraph".data),
                             ("is_complete_paragraph".data, "True".data)],
        token_count := some (cfg.tokenizer.encode para).length }
        :: chunkByParagraphAux cfg meta ps (chunk_id + 1)
            (current_index + para.length + 2)
    else
      let sub := chunk_by_sentence cfg para
        (meta ++ [("large_paragraph".data, "True".data)])
      remapParaSub chunk_id current_index sub
        ++ chunkByParagraphAux cfg meta ps (chunk_id + sub.length)
            (current_index + para.length + 2)

def chunk_by_paragraph (cfg : TextChunker) (text : Str) (meta : Meta) :
    List Chunk :=
  chunkByParagraphAux cfg meta (splitParagraphs text) 0 0

/-- The `while start_token < len(tokens)` loop of `_chunk_by_tokens`, with an
explicit fuel: `none` models non-termination of the Python loop (which indeed
never advances when `chunk_size = 0`). -/
def chunkByTokensAux (cfg : TextChunker) (meta : Meta) (tokens : List Str) :
    Nat → Nat → Nat → Option (List Chunk)
  | 0, _, _ => none
  | Nat.succ fuel, start_token, chunk_id =>
    if start_token < tokens.length then
      let end_token := min (start_token + cfg.chunk_size) tokens.length
      let chunk_tokens := (tokens.drop start_token).take (end_token - start_token)
      let content := chunk_tokens.flatten
      let start_char := ((tokens.take start_token).flatten).length
      let end_char := ((tokens.take end_token).flatten).length
      let chunk : Chunk :=
        { id := ("token_chunk_".data ++ natStr chunk_id),
          content := content,
          start_index := start_char,
          end_index := end_char,
          metadata := meta ++ [("chunk_method".data, "token_based".data)],
          token_count := some chunk_tokens.length,
          overlap_with_previous :=
            decide (0 < start_token) && decide (0 < cfg.overlap) }
      let overlap_tokens := min cfg.overlap (chunk_tokens.length / 2)
      match chunkByTokensAux cfg meta tokens fuel
              (end_token - overlap_tokens) (chunk_id + 1) with
      | some rest => some (chunk :: rest)
      | none => none
    else some []

def chunk_by_tokens (cfg : TextChunker) (text : Str) (meta : Meta) :
    Option (List Chunk) :=
  let tokens := cfg.tokenizer.encode text
  chunkByTokensAux cfg meta tokens (tokens.length + 1) 0 0

/-- The `_analyze_text` metrics.  Python float averages are modelled exactly:
`avg < bound` is stated by cross-multiplication over the integer sums. -/
structure TextAnalysis where
  paragraphs : List Str
  sentences : List Str

def analyze_text (text : Str) : TextAnalysis :=
  { paragraphs := ((splitParagraphs text).map strip).filter
      (fun p => !p.isEmpty),
    sentences := ((splitSentEnds text).map strip).filter
      (fun s => !s.isEmpty) }

/-- Condition `len(paragraphs) > 1 and len(paragraphs) < len(text) / 100`. -/
def has_clear_paragraphs (text : Str) : Bool :=
  let ps := (analyze_text text).paragraphs
  decide (1 < ps.length) && decide (ps.length * 100 < text.length)

/-- Condition `len(sentences) > 5`. -/
def has_clear_sentences (text : Str) : Bool :=
  5 < (analyze_text text).sentences.length

/-- Sum of the lengths of a list of strings. -/
def sumLen (l : List Str) : Nat := (l.map List.length).sum

/-- Embedding of `_chunk_adaptive`: choose paragraph, sentence or token-based from the
text analysis.  `avg_paragraph_length < chunk_size * 1.5` becomes
`2 * sum < 3 * chunk_size * count`; `avg_sentence_length < chunk_size / 2`
becomes `2 * sum < chunk_size * count`. -/
def chunk_adaptive (cfg : TextChunker) (text : Str) (meta : Meta) :
    Option (List Chunk) :=
  let a := analyze_text text
  if has_clear_paragraphs text
      && decide (2 * sumLen a.paragraphs < 3 * cfg.chunk_size * a.paragraphs.length) then
    some (chunk_by_paragraph cfg text
      (meta ++ [("adaptive_choice".data, "paragraph".data)]))
  else if has_clear_sentences text
      && decide (2 * sumLen a.sentences < cfg.chunk_size * a.sentences.length) then
    some (chunk_by_sentence cfg text
      (meta ++ [("adaptive_choice".data, "sentence".data)]))
  else
    chunk_by_tokens cfg text
      (meta ++ [("adaptive_choice".data, "token_based".data)])

/-- Total `sum(chunk.token_count for chunk in chunks if chunk.token_count)` (a
`None` or `0` count contributes nothing either way). -/
def totalTokens (chunks : List Chunk) : Nat :=
  ((chunks.filterMap (fun c => c.token_count))).sum

/-- Embedding of `TextChunker.chunk_text`: dispatch on the strategy — note that the
unhandled `SEMANTIC` value falls into the `else` branch (default to fixed
size, no error) and that `strategy_used` is set to the *requested* strategy.
`none` models a non-terminating call (token-based with `chunk_size = 0`). -/
def chunk_text (cfg : TextChunker) (text : Str)
    (strategy : ChunkingStrategy) (meta : Meta) : Option ChunkingResult :=
  let chunksO : Option (List Chunk) :=
    match strategy with
    | ChunkingStrategy.FIXED_SIZE => some (chunk_fixed_size cfg text meta)
    | ChunkingStrategy.SENTENCE => some (chunk_by_sentence cfg text meta)
    | ChunkingStrategy.PARAGRAPH => some (chunk_by_paragraph cfg text meta)
    | ChunkingStrategy.TOKEN_BASED => chunk_by_tokens cfg text meta
    | ChunkingStrategy.ADAPTIVE => chunk_adaptive cfg text meta
    | ChunkingStrategy.SEMANTIC => some (chunk_fixed_size cfg text meta)
  match chunksO with
  | none => none
  | some chunks =>
    some { chunks := chunks,
           total_chunks := chunks.length,
           strategy_used := strategy,
           original_length := text.length,
           total_tokens := totalTokens chunks,
           metadata := meta }

/-! ## Concrete fixtures for witnesses and counterexamples -/

/-- A concrete tokenizer for witnesses: every character is one token. -/
def charTok : Tokenizer := ⟨fun s => s.map (fun c => [c])⟩

/-- The default configuration `TextChunker(chunk_size=1000, overlap=100)`. -/
def cfgDefault : TextChunker := ⟨1000, 100, charTok⟩

/-- A small configuration `TextChunker(chunk_size=5, overlap=0)`. -/
def cfgSmall : TextChunker := ⟨5, 0, charTok⟩

/-- The invalid configuration `TextChunker(chunk_size=0, overlap=0)`. -/
def cfgZero : TextChunker := ⟨0, 0, charTok⟩

def chunkA : Chunk :=
  { id := "a".data, content := "aaa".data, start_index := 0, end_index := 3,
    metadata := [] }

def chunkB : Chunk :=
  { id := "b".data, content := "bbb".data, start_index := 3, end_index := 6,
    metadata := [] }

/-- A chunk sharing `chunkA`'s id but with different content. -/
def chunkA2 : Chunk :=
  { id := "a".data, content := "zzz".data, start_index := 6, end_index := 9,
    metadata := [] }

/-- An always-raising transform, `lambda c: 1/0`. -/
def failErr : Chunk → Except Str Nat :=
  fun _ => Except.error "division by zero".data

/-- A processing result in which every chunk failed. -/
def resAllFailed : ChunkProcessingResult Nat :=
  process_chunks_sequential failErr [chunkA]

/-- The aggregation function `lambda contents: len(contents)`. -/
def aggLen : List Nat → Except Str Nat := fun l => Except.ok l.length

/-- Length of the decoded token prefix, i.e. the approximate character
offset `len(decode(tokens[:k]))`. -/
def flatLen (tokens : List Str) (k : Nat) : Nat :=
  ((tokens.take k).flatten).length

/-- The chunk built by one iteration of the token window loop (spelled out
for the termination proof). -/
def tokenHeadChunk (cfg : TextChunker) (meta : Meta) (tokens : List Str)
    (start cid : Nat) : Chunk :=
  { id := ("token_chunk_".data ++ natStr cid),
    content := ((tokens.drop start).take
      (min (start + cfg.chunk_size) tokens.length - start)).flatten,
    start_index := ((tokens.take start).flatten).length,
    end_index := ((tokens.take
      (min (start + cfg.chunk_size) tokens.length)).flatten).length,
    metadata := meta ++ [("chunk_method".data, "token_based".data)],
    token_count := some ((tokens.drop start).take
      (min (start + cfg.chunk_size) tokens.length - start)).length,
    overlap_with_previous := decide (0 < start) && decide (0 < cfg.overlap) }

/-! ## Helper lemmas: parallel collection -/

theorem lookup_map_self {β : Type} (g : Nat → β) :
    ∀ (l : List Nat) (i : Nat), i ∈ l →
      (l.map (fun j => (j, g j))).lookup i = some (g i) := by
  intro l
  induction l with
  | nil => intro i h; cases h
  | cons j rest ih =>
    intro i h
    by_cases hij : i = j
    · subst hij
      simp [List.lookup]
    · have hmem : i ∈ rest := by
        cases h with
        | head => exact absurd rfl hij
        | tail _ h => exact h
      have hb : (i == j) = false := by
        simp [hij]
      simp only [List.map_cons, List.lookup, hb]
      exact ih i hmem

theorem range_map_getD {γ : Type} (d : γ) :
    ∀ l : List γ, (List.range l.length).map (fun i => l.getD i d) = l := by
  intro l
  induction l with
  | nil => simp
  | cons x xs ih =>
    rw [List.length_cons, List.range_succ_eq_map, List.map_cons,
      List.map_map]
    have hc : ((fun i => (x :: xs).getD i d) ∘ Nat.succ) =
        fun i => xs.getD i d := by
      funext i
      simp
    rw [List.getD_cons_zero, hc, ih]

/-- The parallel result is completion-order independent: for every completion
order that is a permutation of the indices, `process_chunks_parallel` returns
exactly the input-ordered `parallelResult`. -/
theorem parallel_result_eq {α : Type} (f : Chunk → Except Str α)
    (chunks : List Chunk) (order : List Nat)
    (hperm : order.Perm (List.range chunks.length)) :
    (process_chunks_parallel f chunks order).1 = parallelResult f chunks := by
  have hmem : ∀ i ∈ List.range chunks.length, i ∈ order := fun i hi =>
    hperm.mem_iff.mpr hi
  have hproc :
      (List.range chunks.length).map (fun i =>
        ((order.map (fun j =>
          (j, processSingle f (chunks.getD j default)))).lookup i).getD
            (dummyProcessed α)) = chunks.map (processSingle f) := by
    have h1 : (List.range chunks.length).map (fun i =>
        ((order.map (fun j =>
          (j, processSingle f (chunks.getD j default)))).lookup i).getD
            (dummyProcessed α)) =
        (List.range chunks.length).map (fun i =>
          processSingle f (chunks.getD i default)) := by
      apply List.map_congr_left
      intro i hi
      rw [lookup_map_self (fun j => processSingle f (chunks.getD j default))
        order i (hmem i hi)]
      rfl
    rw [h1]
    have h2 : (List.range chunks.length).map (fun i =>
        processSingle f (chunks.getD i default)) =
        ((List.range chunks.length).map (fun i => chunks.getD i default)).map
          (processSingle f) := by
      rw [List.map_map]; rfl
    rw [h2, range_map_getD]
  show ({ processed_chunks := _, successful_count := _, failed_count := _,
          aggregated_result := none } : ChunkProcessingResult α) = _
  rw [parallelResult]
  simp only [process_chunks_parallel] at hproc ⊢
  rw [hproc]

/-- C1: for every chunk list and every completion order of the worker pool
(any permutation of the indices), `process_chunks_parallel` returns
`processed_chunks` ordered to match the input list —
`processed_chunks[i].original_chunk.id = chunks[i].id` for all `i` — while
the progress callback fires exactly once per completion, in completion
order, with a monotonically increasing completed count `1, 2, ..., n`. -/
theorem parallel_preserves_input_order {α : Type} (f : Chunk → Except Str α)
    (chunks : List Chunk) (order : List Nat)
    (hperm : order.Perm (List.range chunks.length)) :
    ((process_chunks_parallel f chunks order).1.processed_chunks.map
      (fun pc => pc.original_chunk.id)) = chunks.map Chunk.id ∧
    ((process_chunks_parallel f chunks order).2.map (fun t => t.1)) =
      List.range' 1 chunks.length := by
  constructor
  · rw [parallel_result_eq f chunks order hperm]
    show ((chunks.map (processSingle f)).map fun pc => pc.original_chunk.id)
      = chunks.map Chunk.id
    rw [List.map_map]
    apply List.map_congr_left
    intro c _
    show (processSingle f c).original_chunk.id = c.id
    cases hfc : f c <;> simp [processSingle, hfc]
  · show (((order.map (fun i =>
        (i, processSingle f (chunks.getD i default)))).enum.map
          (fun p => (p.1 + 1, chunks.length, p.2.2))).map (fun t => t.1)) = _
    rw [List.map_map]
    have h1 : ((fun (t : Nat × Nat × ProcessedChunk α) => t.1) ∘
        (fun p : Nat × (Nat × ProcessedChunk α) =>
          (p.1 + 1, chunks.length, p.2.2))) =
        (fun p : Nat × (Nat × ProcessedChunk α) => p.1 + 1) := rfl
    rw [h1]
    have h2 : ∀ (l : List (Nat × ProcessedChunk α)),
        l.enum.map (fun p => p.1 + 1) = List.range' 1 l.length := by
      intro l
      have := List.enum_map_fst l
      calc l.enum.map (fun p => p.1 + 1)
          = (l.enum.map Prod.fst).map (fun k => k + 1) := by
            rw [List.map_map]; rfl
        _ = (List.range l.length).map (fun k => k + 1) := by rw [this]
        _ = List.range' 1 l.length := by
            rw [List.range'_eq_map_range]
            apply List.map_congr_left
            intro k _
            omega
    rw [h2]
    have h3 : order.length = chunks.length := by
      simpa using hperm.length_eq
    simp [h3]

/-- Witness for `parallel_preserves_input_order`: two chunks completed in
reversed order `[1, 0]`. -/
theorem parallel_preserves_input_order_witness :
    (((process_chunks_parallel (fun c => Except.ok c.content)
      [chunkA, chunkB] [1, 0]).1.processed_chunks.map
        (fun pc => pc.original_chunk.id)) =
      [chunkA, chunkB].map Chunk.id ∧
    ((process_chunks_parallel (fun c => Except.ok c.content)
      [chunkA, chunkB] [1, 0]).2.map (fun t => t.1)) =
      List.range' 1 [chunkA, chunkB].length) :=
  parallel_preserves_input_order (fun c => Except.ok c.content)
    [chunkA, chunkB] [1, 0] (by decide)

/-- Every `ProcessedChunk` is counted exactly once:
`countSuccess l + countFailed l = l.length`. -/
theorem count_split {α : Type} :
    ∀ l : List (ProcessedChunk α), countSuccess l + countFailed l = l.length := by
  intro l
  induction l with
  | nil => rfl
  | cons pc rest ih =>
    rw [countSuccess, countFailed] at ih ⊢
    cases hs : pc.success <;>
      · simp [List.filter_cons, hs]
        omega

/-- C3: `process_chunks_sequential` catches every per-chunk exception into a
failed `ProcessedChunk` (success false, content `None`, error message the
stringified exception) and continues — the result always satisfies
`successful_count + failed_count = len(processed_chunks)`, and a transform
that always raises (with non-empty message) yields `successful_count = 0`,
`failed_count = len(chunks)` and every `error_message` non-empty. -/
theorem sequential_catches_and_continues {α : Type}
    (f : Chunk → Except Str α) (chunks : List Chunk) :
    (process_chunks_sequential f chunks).successful_count +
      (process_chunks_sequential f chunks).failed_count =
      (process_chunks_sequential f chunks).processed_chunks.length ∧
    (∀ c e, f c = Except.error e → processSingle f c =
      { original_chunk := c, processed_content := none, success := false,
        error_message := some e }) ∧
    (process_chunks_sequential f chunks).processed_chunks =
      chunks.map (processSingle f) ∧
    ((∀ c ∈ chunks, ∃ e, f c = Except.error e ∧ e ≠ []) →
      (process_chunks_sequential f chunks).successful_count = 0 ∧
      (process_chunks_sequential f chunks).failed_count = chunks.length ∧
      ∀ pc ∈ (process_chunks_sequential f chunks).processed_chunks,
        pc.success = false ∧ pc.processed_content = none ∧
        ∃ e, pc.error_message = some e ∧ e ≠ []) := by
  refine ⟨?_, ?_, rfl, ?_⟩
  · exact count_split (chunks.map (processSingle f))
  · intro c e hfc
    rw [processSingle, hfc]
  · intro hall
    have hfail : ∀ pc ∈ chunks.map (processSingle f),
        pc.success = false ∧ pc.processed_content = none ∧
        ∃ e, pc.error_message = some e ∧ e ≠ [] := by
      intro pc hpc
      rcases List.mem_map.mp hpc with ⟨c, hc, rfl⟩
      rcases hall c hc with ⟨e, hfc, hne⟩
      rw [processSingle, hfc]
      exact ⟨rfl, rfl, e, rfl, hne⟩
    refine ⟨?_, ?_, hfail⟩
    · show countSuccess (chunks.map (processSingle f)) = 0
      rw [countSuccess, List.length_eq_zero]
      rw [List.filter_eq_nil_iff]
      intro pc hpc
      simp [(hfail pc hpc).1]
    · show countFailed (chunks.map (processSingle f)) = chunks.length
      rw [countFailed]
      have : (chunks.map (processSingle f)).filter (fun pc => !pc.success) =
          chunks.map (processSingle f) := by
        rw [List.filter_eq_self]
        intro pc hpc
        simp [(hfail pc hpc).1]
      rw [this, List.length_map]

/-- Witness for `sequential_catches_and_continues`: an always-raising
transform over three chunks. -/
theorem sequential_catches_and_continues_witness :
    ((process_chunks_sequential failErr [chunkA, chunkB, chunkA2]).successful_count +
      (process_chunks_sequential failErr [chunkA, chunkB, chunkA2]).failed_count =
      (process_chunks_sequential failErr [chunkA, chunkB, chunkA2]).processed_chunks.length ∧
    (∀ c e, failErr c = Except.error e → processSingle failErr c =
      { original_chunk := c, processed_content := none, success := false,
        error_message := some e }) ∧
    (process_chunks_sequential failErr [chunkA, chunkB, chunkA2]).processed_chunks =
      [chunkA, chunkB, chunkA2].map (processSingle failErr) ∧
    ((∀ c ∈ [chunkA, chunkB, chunkA2], ∃ e,
        failErr c = Except.error e ∧ e ≠ []) →
      (process_chunks_sequential failErr [chunkA, chunkB, chunkA2]).successful_count = 0 ∧
      (process_chunks_sequential failErr [chunkA, chunkB, chunkA2]).failed_count =
        [chunkA, chunkB, chunkA2].length ∧
      ∀ pc ∈ (process_chunks_sequential failErr [chunkA, chunkB, chunkA2]).processed_chunks,
        pc.success = false ∧ pc.processed_content = none ∧
        ∃ e, pc.error_message = some e ∧ e ≠ [])) :=
  sequential_catches_and_continues failErr [chunkA, chunkB, chunkA2]

/-! ## Retry lemmas -/

theorem processSingle_original {α : Type} (g : Chunk → Except Str α)
    (c : Chunk) : (processSingle g c).original_chunk = c := by
  cases hg : g c <;> simp [processSingle, hg]

theorem processSingle_ok_success {α : Type} (g : Chunk → Except Str α)
    (c : Chunk) (h : ∃ v, g c = Except.ok v) :
    (processSingle g c).success = true := by
  obtain ⟨v, hv⟩ := h
  simp [processSingle, hv]

theorem processSingle_error_failure {α : Type} (g : Chunk → Except Str α)
    (c : Chunk) (h : ∃ e, g c = Except.error e) :
    (processSingle g c).success = false := by
  obtain ⟨e, he⟩ := h
  simp [processSingle, he]

theorem countFailed_eq_zero {α : Type} (l : List (ProcessedChunk α))
    (h : ∀ pc ∈ l, pc.success = true) : countFailed l = 0 := by
  rw [countFailed, List.length_eq_zero, List.filter_eq_nil_iff]
  intro pc hpc
  simp [h pc hpc]

theorem countSuccess_eq_length {α : Type} (l : List (ProcessedChunk α))
    (h : ∀ pc ∈ l, pc.success = true) : countSuccess l = l.length := by
  rw [countSuccess]
  rw [List.filter_eq_self.mpr (fun pc hpc => by simp [h pc hpc])]

/-- The retry loop returns its input unchanged as soon as no chunk remains
failed (the early stop). -/
theorem retryLoop_all_success {α : Type} (f : Nat → Chunk → Except Str α)
    (k attempt : Nat) (res : ChunkProcessingResult α)
    (h : ∀ pc ∈ res.processed_chunks, pc.success = true) :
    retryLoop f k attempt res = res := by
  cases k with
  | zero => rfl
  | succ k' =>
    rw [retryLoop]
    have hnil : res.processed_chunks.filter (fun pc => !pc.success) = [] := by
      rw [List.filter_eq_nil_iff]
      intro pc hpc
      simp [h pc hpc]
    rw [hnil]
    rfl

/-- After splicing a fully-successful retry pass that covers every failed id,
every position is successful. -/
theorem spliceRound_all_success {α : Type}
    (result retry : List (ProcessedChunk α))
    (hcover : ∀ pc ∈ result, pc.success = false →
      ∃ rpc ∈ retry, (rpc.original_chunk.id == pc.original_chunk.id) = true)
    (hretry : ∀ rpc ∈ retry, rpc.success = true) :
    ∀ pc ∈ spliceRound result retry, pc.success = true := by
  intro pc hpc
  rw [spliceRound] at hpc
  rcases List.mem_map.mp hpc with ⟨q, hq, rfl⟩
  cases hs : q.success with
  | true => simp [hs]
  | false =>
    rcases hcover q hq hs with ⟨rpc, hrpc, hmatch⟩
    have hfind : (retryDictGet retry q.original_chunk.id).isSome := by
      rw [retryDictGet, List.find?_isSome]
      exact ⟨rpc, List.mem_reverse.mpr hrpc, hmatch⟩
    cases hd : retryDictGet retry q.original_chunk.id with
    | none => rw [hd] at hfind; cases hfind
    | some rpc' =>
      have hrpc' : rpc' ∈ retry := by
        rw [retryDictGet] at hd
        exact List.mem_reverse.mp (List.mem_of_find?_eq_some hd)
      simp only [hs, Bool.not_false, if_pos, hd]
      exact hretry rpc' hrpc'

/-- C2: with a transform that fails on the first attempt and succeeds on any
later attempt, `process_with_retry` with `max_retries ≥ 1` converges: the
final result has `failed_count = 0` and `successful_count = len(chunks)`. -/
theorem retry_convergence {α : Type} (f : Nat → Chunk → Except Str α)
    (chunks : List Chunk) (max_retries : Nat)
    (h0 : ∀ c, ∃ e, f 0 c = Except.error e)
    (h1 : ∀ r c, 1 ≤ r → ∃ v, f r c = Except.ok v)
    (hm : 1 ≤ max_retries) :
    (process_with_retry f chunks max_retries).failed_count = 0 ∧
    (process_with_retry f chunks max_retries).successful_count =
      chunks.length := by
  obtain ⟨k, rfl⟩ : ∃ k, max_retries = k + 1 := ⟨max_retries - 1, by omega⟩
  rw [process_with_retry]
  cases chunks with
  | nil =>
    rw [retryLoop_all_success _ _ _ _ (by intro pc hpc; cases hpc)]
    constructor <;> rfl
  | cons c cs =>
    set chunks := c :: cs with hchunks
    have hfail0 : ∀ pc ∈ (parallelResult (f 0) chunks).processed_chunks,
        pc.success = false := by
      intro pc hpc
      rcases List.mem_map.mp hpc with ⟨d, _, rfl⟩
      exact processSingle_error_failure _ d (h0 d)
    rw [retryLoop]
    have hfilter :
        (parallelResult (f 0) chunks).processed_chunks.filter
          (fun pc => !pc.success) =
        (parallelResult (f 0) chunks).processed_chunks := by
      rw [List.filter_eq_self]
      intro pc hpc
      simp [hfail0 pc hpc]
    rw [hfilter]
    have hne :
        ((parallelResult (f 0) chunks).processed_chunks.map
          (fun pc => pc.original_chunk)).isEmpty = false := by
      show ((chunks.map (processSingle (f 0))).map
        (fun pc => pc.original_chunk)).isEmpty = false
      rw [hchunks]
      rfl
    rw [hne]
    simp only [Bool.false_eq_true, if_false]
    set failed := (parallelResult (f 0) chunks).processed_chunks.map
      (fun pc => pc.original_chunk) with hfailed
    have hfailed_eq : failed = chunks := by
      rw [hfailed]
      show (chunks.map (processSingle (f 0))).map
        (fun pc => pc.original_chunk) = chunks
      rw [List.map_map]
      have : ((fun pc : ProcessedChunk α => pc.original_chunk) ∘
          processSingle (f 0)) = id := by
        funext d
        exact processSingle_original (f 0) d
      rw [this, List.map_id]
    have hsucc : ∀ pc ∈ spliceRound
        (parallelResult (f 0) chunks).processed_chunks
        (parallelResult (f 1) failed).processed_chunks, pc.success = true := by
      apply spliceRound_all_success
      · intro pc hpc _
        rcases List.mem_map.mp hpc with ⟨d, hd, rfl⟩
        refine ⟨processSingle (f 1) d, ?_, ?_⟩
        · show processSingle (f 1) d ∈ failed.map (processSingle (f 1))
          rw [hfailed_eq]
          exact List.mem_map_of_mem _ hd
        · rw [processSingle_original, processSingle_original]
          simp
      · intro rpc hrpc
        rcases List.mem_map.mp hrpc with ⟨d, _, rfl⟩
        exact processSingle_ok_success _ d (h1 1 d (by omega))
    rw [retryLoop_all_success _ _ _ _ hsucc]
    have hlen : (spliceRound (parallelResult (f 0) chunks).processed_chunks
        (parallelResult (f 1) failed).processed_chunks).length =
        chunks.length := by
      rw [spliceRound, List.length_map]
      show (chunks.map (processSingle (f 0))).length = chunks.length
      rw [List.length_map]
    exact ⟨countFailed_eq_zero _ hsucc, by
      rw [countSuccess_eq_length _ hsucc, hlen]⟩

/-- Witness for `retry_convergence`: one chunk, failing on attempt 0,
succeeding afterwards, `max_retries = 1`. -/
theorem retry_convergence_witness :
    ((process_with_retry
        (fun r _ => if r = 0 then Except.error "boom".data else Except.ok 7)
        [chunkA] 1).failed_count = 0 ∧
      (process_with_retry
        (fun r _ => if r = 0 then Except.error "boom".data else Except.ok 7)
        [chunkA] 1).successful_count = [chunkA].length) :=
  retry_convergence
    (fun r _ => if r = 0 then Except.error "boom".data else Except.ok 7)
    [chunkA] 1
    (fun c => ⟨"boom".data, rfl⟩)
    (fun r c hr => ⟨7, by
      have : ¬ r = 0 := by omega
      simp [this]⟩)
    (by omega)

/-- C10: retry splicing matches solely by `original_chunk.id` through a
last-wins dictionary — with two distinct chunks sharing one id, both failing
the initial pass, one retry round leaves *both* positions holding the single
`ProcessedChunk` kept for that id, namely the last retry outcome (the one for
the second chunk), whatever that outcome is. -/
theorem retry_duplicate_id_collapse {α : Type}
    (f : Nat → Chunk → Except Str α) (c₁ c₂ : Chunk)
    (hid : c₁.id = c₂.id) (hne : c₁ ≠ c₂)
    (h0 : ∀ c, ∃ e, f 0 c = Except.error e) :
    (process_with_retry f [c₁, c₂] 1).processed_chunks =
      [processSingle (f 1) c₂, processSingle (f 1) c₂] := by
  obtain ⟨e₁, he₁⟩ := h0 c₁
  obtain ⟨e₂, he₂⟩ := h0 c₂
  have horig₁ := processSingle_original (f 1) c₁
  have horig₂ := processSingle_original (f 1) c₂
  have hid₂₁ : (c₂.id == c₁.id) = true := by
    rw [hid]
    simp
  rw [process_with_retry, parallelResult]
  simp only [List.map_cons, List.map_nil]
  rw [retryLoop]
  have hps₁ : processSingle (f 0) c₁ =
      { original_chunk := c₁, processed_content := none, success := false,
        error_message := some e₁ } := by
    rw [processSingle, he₁]
  have hps₂ : processSingle (f 0) c₂ =
      { original_chunk := c₂, processed_content := none, success := false,
        error_message := some e₂ } := by
    rw [processSingle, he₂]
  rw [hps₁, hps₂]
  simp only [List.filter_cons, List.filter_nil, Bool.not_false, if_pos,
    List.map_cons, List.map_nil, List.isEmpty_cons, Bool.false_eq_true,
    if_false]
  show (retryLoop f 0 2 _).processed_chunks = _
  rw [retryLoop]
  show spliceRound _ _ = _
  rw [parallelResult]
  simp only [List.map_cons, List.map_nil]
  rw [spliceRound]
  simp only [List.map_cons, List.map_nil]
  have hdict : ∀ i : Str, (i == c₁.id) = true →
      retryDictGet [processSingle (f 1) c₁, processSingle (f 1) c₂] i =
        some (processSingle (f 1) c₂) := by
    intro i hi
    rw [retryDictGet]
    show List.find? _ [processSingle (f 1) c₂, processSingle (f 1) c₁] = _
    rw [List.find?]
    have : ((processSingle (f 1) c₂).original_chunk.id == i) = true := by
      rw [horig₂]
      have h1 : c₂.id = c₁.id := hid.symm
      have h2 : i = c₁.id := by
        have := eq_of_beq hi
        exact this
      rw [h1, h2]
      simp
    rw [this]
  have hd₁ := hdict c₁.id (by simp)
  have hd₂ := hdict c₂.id hid₂₁
  simp only [Bool.not_false, if_pos]
  rw [hd₁, hd₂]

/-- Witness for `retry_duplicate_id_collapse`: two distinct chunks with the
same id `"a"`, transform failing on attempt 0. -/
theorem retry_duplicate_id_collapse_witness :
    (process_with_retry
      (fun r c => if r = 0 then Except.error "err".data
        else Except.ok c.content)
      [chunkA, chunkA2] 1).processed_chunks =
      [processSingle (fun c => if (1 : Nat) = 0 then Except.error "err".data
          else Except.ok c.content) chunkA2,
        processSingle (fun c => if (1 : Nat) = 0 then Except.error "err".data
          else Except.ok c.content) chunkA2] :=
  retry_duplicate_id_collapse
    (fun r c => if r = 0 then Except.error "err".data
      else Except.ok c.content)
    chunkA chunkA2 rfl (by decide) (fun c => ⟨"err".data, rfl⟩)

/-- C9 (amended form): `aggregate_results` collects the successful non-null
contents in order; when that list is non-empty it applies `aggregation_func`
and stores an `ok` return into `aggregated_result`, leaves everything
unchanged when it raises, and — the amendment — when the list is empty the
aggregation function is never invoked and the result is returned unchanged.
In every case the per-chunk results and the counts are unaffected and no
exception propagates (the operation is total). -/
theorem aggregate_results_spec {α : Type} (res : ChunkProcessingResult α)
    (aggregation_func : List α → Except Str α) :
    (successful_results res =
      res.processed_chunks.filterMap
        (fun pc => if pc.success then pc.processed_content else none)) ∧
    (∀ v, successful_results res ≠ [] →
      aggregation_func (successful_results res) = Except.ok v →
      aggregate_results res aggregation_func =
        { res with aggregated_result := some v }) ∧
    (∀ e, aggregation_func (successful_results res) = Except.error e →
      aggregate_results res aggregation_func = res) ∧
    (successful_results res = [] →
      aggregate_results res aggregation_func = res) ∧
    (aggregate_results res aggregation_func).processed_chunks =
      res.processed_chunks ∧
    (aggregate_results res aggregation_func).successful_count =
      res.successful_count ∧
    (aggregate_results res aggregation_func).failed_count =
      res.failed_count := by
  have hunch : (aggregate_results res aggregation_func).processed_chunks =
      res.processed_chunks ∧
      (aggregate_results res aggregation_func).successful_count =
        res.successful_count ∧
      (aggregate_results res aggregation_func).failed_count =
        res.failed_count := by
    rw [aggregate_results]
    cases hemp : (successful_results res).isEmpty
    · simp only [Bool.false_eq_true, if_false]
      cases hagg : aggregation_func (successful_results res) <;> simp
    · simp
  refine ⟨rfl, ?_, ?_, ?_, hunch.1, hunch.2.1, hunch.2.2⟩
  · intro v hne hok
    rw [aggregate_results]
    have : (successful_results res).isEmpty = false := by
      cases h : successful_results res with
      | nil => exact absurd h hne
      | cons a l => rfl
    rw [this]
    simp only [Bool.false_eq_true, if_false]
    rw [hok]
  · intro e herr
    rw [aggregate_results]
    cases hemp : (successful_results res).isEmpty
    · simp only [Bool.false_eq_true, if_false]
      rw [herr]
    · simp
  · intro hnil
    rw [aggregate_results, hnil]
    rfl

/-- Counterexample to C9 as stated: with zero successful chunks the
aggregation function — although it would return `ok 0` on the collected
(empty) list — is never invoked, and `aggregated_result` stays `None`
instead of receiving the return value. -/
theorem aggregate_skips_empty_counterexample :
    aggLen (successful_results resAllFailed) = Except.ok 0 ∧
    (aggregate_results resAllFailed aggLen).aggregated_result = none := by
  constructor <;> rfl

/-- Witness for `aggregate_results_spec` at a concrete one-success result. -/
theorem aggregate_results_spec_witness :
    ((successful_results (process_chunks_sequential (fun c => Except.ok c.content.length) [chunkA]) =
      (process_chunks_sequential (fun c => Except.ok c.content.length) [chunkA]).processed_chunks.filterMap
        (fun pc => if pc.success then pc.processed_content else none)) ∧
    (∀ v, successful_results (process_chunks_sequential (fun c => Except.ok c.content.length) [chunkA]) ≠ [] →
      aggLen (successful_results (process_chunks_sequential (fun c => Except.ok c.content.length) [chunkA])) = Except.ok v →
      aggregate_results (process_chunks_sequential (fun c => Except.ok c.content.length) [chunkA]) aggLen =
        { process_chunks_sequential (fun c => Except.ok c.content.length) [chunkA] with aggregated_result := some v }) ∧
    (∀ e, aggLen (successful_results (process_chunks_sequential (fun c => Except.ok c.content.length) [chunkA])) = Except.error e →
      aggregate_results (process_chunks_sequential (fun c => Except.ok c.content.length) [chunkA]) aggLen =
        process_chunks_sequential (fun c => Except.ok c.content.length) [chunkA]) ∧
    (successful_results (process_chunks_sequential (fun c => Except.ok c.content.length) [chunkA]) = [] →
      aggregate_results (process_chunks_sequential (fun c => Except.ok c.content.length) [chunkA]) aggLen =
        process_chunks_sequential (fun c => Except.ok c.content.length) [chunkA]) ∧
    (aggregate_results (process_chunks_sequential (fun c => Except.ok c.content.length) [chunkA]) aggLen).processed_chunks =
      (process_chunks_sequential (fun c => Except.ok c.content.length) [chunkA]).processed_chunks ∧
    (aggregate_results (process_chunks_sequential (fun c => Except.ok c.content.length) [chunkA]) aggLen).successful_count =
      (process_chunks_sequential (fun c => Except.ok c.content.length) [chunkA]).successful_count ∧
    (aggregate_results (process_chunks_sequential (fun c => Except.ok c.content.length) [chunkA]) aggLen).failed_count =
      (process_chunks_sequential (fun c => Except.ok c.content.length) [chunkA]).failed_count) :=
  aggregate_results_spec
    (process_chunks_sequential (fun c => Except.ok c.content.length) [chunkA]) aggLen

/-- Counterexample to C4 as stated: an adaptive `chunk_text` call in which
the concretely applied sub-strategy is token-based (visible in each chunk's
`adaptive_choice` metadata), yet `strategy_used` is the requested `ADAPTIVE`
value, not the sub-strategy. -/
theorem adaptive_strategy_used_counterexample :
    ((chunk_text cfgDefault "hello".data ChunkingStrategy.ADAPTIVE []).map
      (fun r => r.strategy_used)) = some ChunkingStrategy.ADAPTIVE ∧
    ((chunk_text cfgDefault "hello".data ChunkingStrategy.ADAPTIVE []).map
      (fun r => r.chunks.map (fun c => c.metadata))) =
      some (List.replicate 3
        [("adaptive_choice".data, "token_based".data),
         ("chunk_method".data, "token_based".data)]) := by
  constructor <;> rfl

/-- C4 (amended form): `chunk_text` always records the *requested* strategy
in `strategy_used` — an `ADAPTIVE` request yields
`strategy_used = ADAPTIVE`; the concretely chosen sub-strategy is recorded
only in the per-chunk `adaptive_choice` metadata. -/
theorem chunk_text_strategy_used_requested (cfg : TextChunker) (text : Str)
    (strategy : ChunkingStrategy) (meta : Meta) (r : ChunkingResult)
    (h : chunk_text cfg text strategy meta = some r) :
    r.strategy_used = strategy := by
  simp only [chunk_text] at h
  split at h
  · exact absurd h (by simp)
  · injection h with h'
    rw [← h']

/-- Witness for `chunk_text_strategy_used_requested`. -/
theorem chunk_text_strategy_used_requested_witness :
    ((chunk_text cfgDefault "hello".data ChunkingStrategy.ADAPTIVE []).map
      (fun r => r.strategy_used)) = some ChunkingStrategy.ADAPTIVE := by
  cases hr : chunk_text cfgDefault "hello".data ChunkingStrategy.ADAPTIVE [] with
  | none => exact absurd hr (by decide)
  | some r =>
    rw [Option.map_some']
    rw [chunk_text_strategy_used_requested cfgDefault "hello".data
      ChunkingStrategy.ADAPTIVE [] r hr]

/-- Counterexample to C7 as stated: the invalid configuration
`chunk_size = 0` is accepted silently — the call returns a normal result
(here even containing empty-content chunks) instead of raising — and the
unhandled `SEMANTIC` strategy value silently falls back to fixed-size
chunking instead of raising. -/
theorem config_error_not_raised_counterexample :
    (chunk_text cfgZero "ab".data ChunkingStrategy.FIXED_SIZE []).isSome =
      true ∧
    ((chunk_text cfgZero "ab".data ChunkingStrategy.FIXED_SIZE []).map
      (fun r => r.chunks.map (fun c => c.content))) = some [[], []] ∧
    ((chunk_text cfgDefault "ab".data ChunkingStrategy.SEMANTIC []).map
      (fun r => r.chunks)) =
    ((chunk_text cfgDefault "ab".data ChunkingStrategy.FIXED_SIZE []).map
      (fun r => r.chunks)) := by
  refine ⟨rfl, rfl, rfl⟩

/-- C7 (amended form): invalid configuration is never surfaced as an error:
`chunk_text` performs no validation of `chunk_size` or `overlap` (every
configuration, including `chunk_size = 0` and `overlap ≥ chunk_size`,
returns a normal result on the character-based strategies), and a strategy
value with no dispatch branch (`SEMANTIC`) silently falls back to fixed-size
chunking. -/
theorem config_errors_silently_accommodated (cfg : TextChunker) (text : Str)
    (meta : Meta) :
    (chunk_text cfg text ChunkingStrategy.FIXED_SIZE meta).isSome = true ∧
    (chunk_text cfg text ChunkingStrategy.SENTENCE meta).isSome = true ∧
    (chunk_text cfg text ChunkingStrategy.PARAGRAPH meta).isSome = true ∧
    ((chunk_text cfg text ChunkingStrategy.SEMANTIC meta).map
      (fun r => r.chunks)) =
    ((chunk_text cfg text ChunkingStrategy.FIXED_SIZE meta).map
      (fun r => r.chunks)) := by
  refine ⟨rfl, rfl, rfl, rfl⟩

/-! ## String lemmas for coverage and non-emptiness -/

theorem nonWs_append (a b : Str) : nonWs (a ++ b) = nonWs a ++ nonWs b := by
  rw [nonWs, nonWs, nonWs, List.filter_append]

theorem nonWs_reverse (l : Str) : nonWs l.reverse = (nonWs l).reverse := by
  rw [nonWs, nonWs, List.filter_reverse]

theorem nonWs_cons_ws (c : Char) (l : Str) (h : isPySpace c = true) :
    nonWs (c :: l) = nonWs l := by
  rw [nonWs, nonWs, List.filter_cons]
  simp [h]

theorem nonWs_cons_nonws (c : Char) (l : Str) (h : isPySpace c = false) :
    nonWs (c :: l) = c :: nonWs l := by
  rw [nonWs, nonWs, List.filter_cons]
  simp [h]

theorem nonWs_dropWhile (l : Str) :
    nonWs (l.dropWhile isPySpace) = nonWs l := by
  induction l with
  | nil => rfl
  | cons c rest ih =>
    cases h : isPySpace c with
    | true => rw [List.dropWhile_cons_of_pos h, ih, nonWs_cons_ws c rest h]
    | false => rw [List.dropWhile_cons_of_neg (by simp [h])]

theorem nonWs_strip (s : Str) : nonWs (strip s) = nonWs s := by
  rw [strip, nonWs_reverse, nonWs_dropWhile, nonWs_reverse, nonWs_dropWhile,
    List.reverse_reverse]

theorem strip_ne_nil_of_nonWs (s : Str) (h : nonWs s ≠ []) :
    strip s ≠ [] := by
  intro hcon
  apply h
  rw [← nonWs_strip, hcon]
  rfl

theorem nonWs_eq_nil_of_all_ws (l : Str) (h : ∀ c ∈ l, isPySpace c = true) :
    nonWs l = [] := by
  rw [nonWs, List.filter_eq_nil_iff]
  intro c hc
  simp [h c hc]

/-- A sentence-ending character is not whitespace. -/
theorem sentEnd_not_ws (c : Char) (h : isSentEnd c = true) :
    isPySpace c = false := by
  rw [isSentEnd] at h
  rcases Bool.or_eq_true_iff.mp h with h' | h'
  · rcases Bool.or_eq_true_iff.mp h' with h'' | h'' <;>
      · rw [isPySpace, eq_of_beq h'']
        rfl
  · rw [isPySpace, eq_of_beq h']
    rfl

/-- If the window has room (`start + 1 ≤ end0`), the adjusted end still lies
strictly past `start` (the retraction only picks a space strictly after
`start`). -/
theorem fixedEnd_ge (text : Str) (start end0 : Nat) (h : start + 1 ≤ end0) :
    start + 1 ≤ fixedEnd text start end0 := by
  rw [fixedEnd]
  by_cases h1 : end0 < text.length ∧ ¬ isPySpace (text.getD end0 ' ')
  · rw [if_pos h1]
    cases hr : rfindSpace text start end0 with
    | none => simp only [hr]; exact h
    | some j =>
      simp only [hr]
      by_cases h2 : start < j
      · rw [if_pos h2]; omega
      · rw [if_neg h2]; exact h
  · rw [if_neg h1]; exact h

/-- Fixed-size chunks have non-empty content whenever `chunk_size ≥ 1`. -/
theorem chunkFixedAux_content_ne_nil (cfg : TextChunker) (meta : Meta)
    (text : Str) (hcs : 1 ≤ cfg.chunk_size) :
    ∀ fuel start cid, ∀ ch ∈ chunkFixedAux cfg meta text fuel start cid,
      ch.content ≠ [] := by
  intro fuel
  induction fuel with
  | zero => intro start cid ch hch; cases hch
  | succ fuel ih =>
    intro start cid ch hch
    rw [chunkFixedAux] at hch
    by_cases h : start < text.length
    · rw [if_pos h] at hch
      rcases List.mem_cons.mp hch with rfl | hch'
      · show (text.drop start).take
          (fixedEnd text start (min (start + cfg.chunk_size) text.length)
            - start) ≠ []
        have hge : start + 1 ≤
            fixedEnd text start (min (start + cfg.chunk_size) text.length) :=
          fixedEnd_ge text start _ (by omega)
        have hdrop : text.drop start ≠ [] := by
          intro hcon
          rw [List.drop_eq_nil_iff] at hcon
          omega
        intro hcon
        rcases List.take_eq_nil_iff.mp hcon with h' | h'
        · omega
        · exact hdrop h'
      · exact ih _ _ ch hch'
    · rw [if_neg h] at hch; cases hch

/-- A non-empty all-whitespace piece of the sentence split forces the whole
remaining input (and accumulator) to be whitespace, and can only be the very
first piece. -/
theorem splitSentencesAux_allws_piece :
    ∀ (rest acc : Str) (skipping : Bool),
      (skipping = true → acc = []) →
      ∀ p ∈ splitSentencesAux rest acc skipping, p ≠ [] → nonWs p = [] →
        skipping = false ∧ nonWs acc = [] ∧ nonWs rest = [] := by
  intro rest
  induction rest with
  | nil =>
    intro acc skipping hinv p hp hne hws
    simp only [splitSentencesAux, List.mem_singleton] at hp
    subst hp
    have hskip : skipping = false := by
      cases hskip : skipping with
      | false => rfl
      | true => exact absurd (by rw [hinv hskip]; rfl) hne
    refine ⟨hskip, ?_, rfl⟩
    have : (nonWs acc).reverse = [] := by rw [← nonWs_reverse]; exact hws
    simpa using this
  | cons c rest ih =>
    intro acc skipping hinv p hp hne hws
    simp only [splitSentencesAux] at hp
    by_cases hA : (skipping && isPySpace c) = true
    · rw [if_pos hA] at hp
      have hskip : skipping = true := (Bool.and_eq_true _ _ |>.mp hA).1
      have := ih acc skipping hinv p hp hne hws
      rw [this.1] at hskip
      cases hskip
    · rw [if_neg hA] at hp
      split at hp
      · rename_i hB
        rcases List.mem_cons.mp hp with rfl | hp'
        · cases acc with
          | nil => simp at hB
          | cons a as =>
            have ha : isSentEnd a = true := (Bool.and_eq_true _ _ |>.mp hB).2
            have : nonWs ((a :: as).reverse) ≠ [] := by
              rw [nonWs_reverse, nonWs_cons_nonws a as (sentEnd_not_ws a ha)]
              simp
            exact absurd hws this
        · have := ih [] true (fun _ => rfl) p hp' hne hws
          cases this.1
      · obtain ⟨-, hca, hrest⟩ :=
          ih (c :: acc) false (by simp) p hp hne hws
        have hc : isPySpace c = true := by
          cases hcc : isPySpace c with
          | true => rfl
          | false =>
            rw [nonWs_cons_nonws c acc hcc] at hca
            cases hca
        refine ⟨?_, ?_, ?_⟩
        · cases hskip : skipping with
          | false => rfl
          | true =>
            rw [hskip] at hA
            exact absurd (by simp [hc]) hA
        · rw [nonWs_cons_ws c acc hc] at hca
          exact hca
        · rw [nonWs_cons_ws c rest hc]
          exact hrest

/-- For a text that is not whitespace-only, every non-empty piece of the
sentence split contains a non-whitespace character. -/
theorem splitSentences_piece_nonWs (text : Str) (h : nonWs text ≠ []) :
    ∀ p ∈ splitSentences text, p ≠ [] → nonWs p ≠ [] := by
  intro p hp hne hws
  obtain ⟨-, -, hrest⟩ :=
    splitSentencesAux_allws_piece text [] false (by simp) p hp hne hws
  exact h hrest

/-- Sentence chunks have non-empty content as long as every non-empty
sentence piece and the running buffer contain a non-whitespace character. -/
theorem chunkBySentenceAux_content_ne_nil (cfg : TextChunker) (meta : Meta) :
    ∀ (ss : List Str) (current : Str) (sidx cid : Nat),
      (∀ p ∈ ss, p ≠ [] → nonWs p ≠ []) →
      (current ≠ [] → nonWs current ≠ []) →
      ∀ ch ∈ chunkBySentenceAux cfg meta ss current sidx cid,
        ch.content ≠ [] := by
  intro ss
  induction ss with
  | nil =>
    intro current sidx cid hp hcur ch hch
    simp only [chunkBySentenceAux] at hch
    by_cases hc : current.isEmpty = true
    · rw [if_pos hc] at hch; cases hch
    · rw [if_neg hc] at hch
      rcases List.mem_singleton.mp hch with rfl
      show strip current ≠ []
      apply strip_ne_nil_of_nonWs
      apply hcur
      intro hcon
      rw [hcon] at hc
      exact hc rfl
  | cons s ss ih =>
    intro current sidx cid hp hcur ch hch
    have hps : s ≠ [] → nonWs s ≠ [] := hp s (List.mem_cons_self s ss)
    have hpss : ∀ p ∈ ss, p ≠ [] → nonWs p ≠ [] := fun p h =>
      hp p (List.mem_cons_of_mem s h)
    simp only [chunkBySentenceAux] at hch
    by_cases hc : current.isEmpty = true
    · rw [if_pos hc, if_neg (fun hcon => hcon.2 hc)] at hch
      exact ih s _ _ hpss hps ch hch
    · rw [if_neg hc] at hch
      have hcur' : nonWs current ≠ [] := by
        apply hcur
        intro hcon
        rw [hcon] at hc
        exact hc rfl
      split at hch
      · rcases List.mem_cons.mp hch with rfl | hch'
        · exact strip_ne_nil_of_nonWs current hcur'
        · exact ih s _ _ hpss hps ch hch'
      · refine ih _ _ _ hpss ?_ ch hch
        intro hpot
        rw [nonWs_append, nonWs_cons_ws ' ' s (by rfl)]
        intro hcon
        exact hcur' (List.append_eq_nil.mp hcon).1

/-- Counterexample to C6 as stated: chunking the whitespace-only text `" "`
with the sentence strategy emits exactly one chunk whose content is the
empty string (the buffer `" "` is non-empty, so it is flushed, but its
stripped content is empty). -/
theorem empty_content_chunk_counterexample :
    ((chunk_text cfgDefault " ".data ChunkingStrategy.SENTENCE []).map
      (fun r => r.chunks.map (fun c => c.content))) = some [[]] := by
  rfl

/-- C6 (amended form): no chunk emitted by the fixed-size strategy (with
`chunk_size ≥ 1`) has empty content, and no chunk emitted by the sentence
strategy has empty content *provided the text contains at least one
non-whitespace character* — for whitespace-only text the sentence strategy
emits a chunk with empty content. -/
theorem chunks_nonempty_amended (cfg : TextChunker) (text : Str)
    (meta : Meta) (hcs : 1 ≤ cfg.chunk_size) (hnws : nonWs text ≠ []) :
    (∀ ch ∈ chunk_fixed_size cfg text meta, ch.content ≠ []) ∧
    (∀ ch ∈ chunk_by_sentence cfg text meta, ch.content ≠ []) := by
  constructor
  · intro ch hch
    exact chunkFixedAux_content_ne_nil cfg meta text hcs _ 0 0 ch hch
  · intro ch hch
    refine chunkBySentenceAux_content_ne_nil cfg meta
      (splitSentences text) [] 0 0
      (splitSentences_piece_nonWs text hnws) ?_ ch hch
    intro hcon
    exact absurd rfl hcon

/-- Witness for `chunks_nonempty_amended` on the text `"ab. cd"`. -/
theorem chunks_nonempty_amended_witness :
    (∀ ch ∈ chunk_fixed_size cfgSmall "ab. cd".data [], ch.content ≠ []) ∧
    (∀ ch ∈ chunk_by_sentence cfgSmall "ab. cd".data [], ch.content ≠ []) :=
  chunks_nonempty_amended cfgSmall "ab. cd".data [] (by decide) (by decide)

/-! ## Coverage lemmas (C5) -/

/-- Fixed-size chunks with zero overlap tile the text exactly: the contents
from position `start` onward concatenate to `text[start:]`. -/
theorem chunkFixedAux_flatten (cfg : TextChunker) (meta : Meta) (text : Str)
    (hov : cfg.overlap = 0) (hcs : 1 ≤ cfg.chunk_size) :
    ∀ fuel start cid, text.length - start < fuel →
      (((chunkFixedAux cfg meta text fuel start cid).map
        (fun ch => ch.content)).flatten) = text.drop start := by
  intro fuel
  induction fuel with
  | zero => intro start cid h; omega
  | succ fuel ih =>
    intro start cid h
    rw [chunkFixedAux]
    by_cases hs : start < text.length
    · rw [if_pos hs]
      have hge : start + 1 ≤
          fixedEnd text start (min (start + cfg.chunk_size) text.length) :=
        fixedEnd_ge text start _ (by omega)
      rw [List.map_cons, List.flatten_cons]
      have hnext : max
          (fixedEnd text start (min (start + cfg.chunk_size) text.length)
            - cfg.overlap) (start + 1) =
          fixedEnd text start (min (start + cfg.chunk_size) text.length) := by
        rw [hov]
        omega
      rw [hnext, ih _ (cid + 1) (by omega)]
      have hdd : text.drop
          (fixedEnd text start (min (start + cfg.chunk_size) text.length)) =
          (text.drop start).drop
            (fixedEnd text start (min (start + cfg.chunk_size) text.length)
              - start) := by
        rw [List.drop_drop]
        congr 1
        omega
      rw [hdd, List.take_append_drop]
    · rw [if_neg hs]
      rw [List.map_nil, List.flatten_nil, eq_comm, List.drop_eq_nil_iff]
      omega

/-- The sentence split loses only whitespace: the non-whitespace characters
of the concatenated pieces are exactly those of the input. -/
theorem splitSentencesAux_flatten_nonWs :
    ∀ (rest acc : Str) (skipping : Bool),
      nonWs ((splitSentencesAux rest acc skipping).flatten) =
        nonWs (acc.reverse ++ rest) := by
  intro rest
  induction rest with
  | nil =>
    intro acc skipping
    simp only [splitSentencesAux, List.flatten_cons, List.flatten_nil,
      List.append_nil]
  | cons c rest ih =>
    intro acc skipping
    simp only [splitSentencesAux]
    by_cases hA : (skipping && isPySpace c) = true
    · rw [if_pos hA, ih acc skipping]
      have hc : isPySpace c = true := (Bool.and_eq_true _ _ |>.mp hA).2
      rw [nonWs_append, nonWs_append, nonWs_cons_ws c rest hc]
    · rw [if_neg hA]
      split
      · rename_i hB
        have hc : isPySpace c = true :=
          ((Bool.and_eq_true _ _ |>.mp (Bool.and_eq_true _ _ |>.mp hB).1).2)
        rw [List.flatten_cons, nonWs_append, ih [] true, nonWs_append,
          nonWs_append, nonWs_cons_ws c rest hc]
        rfl
      · rw [ih (c :: acc) false, List.reverse_cons, List.append_assoc]
        rfl

theorem mkSentChunk_content (cfg : TextChunker) (meta : Meta)
    (cid : Nat) (cur : Str) (sidx : Nat) :
    (mkSentChunk cfg meta cid cur sidx).content = strip cur := rfl

/-- The sentence-accumulation loop loses only whitespace relative to the
buffer plus the remaining sentence pieces. -/
theorem chunkBySentenceAux_flatten_nonWs (cfg : TextChunker) (meta : Meta) :
    ∀ (ss : List Str) (current : Str) (sidx cid : Nat),
      nonWs (((chunkBySentenceAux cfg meta ss current sidx cid).map
        (fun ch => ch.content)).flatten) =
      nonWs (current ++ ss.flatten) := by
  intro ss
  induction ss with
  | nil =>
    intro current sidx cid
    simp only [chunkBySentenceAux]
    by_cases hc : current.isEmpty = true
    · rw [if_pos hc, List.isEmpty_iff.mp hc]
      rfl
    · rw [if_neg hc]
      show nonWs (strip current ++ []) = nonWs (current ++ [].flatten)
      rw [List.append_nil, List.flatten_nil, List.append_nil, nonWs_strip]
  | cons s ss ih =>
    intro current sidx cid
    simp only [chunkBySentenceAux]
    by_cases hc : current.isEmpty = true
    · rw [if_pos hc, if_neg (fun hcon => hcon.2 hc), ih,
        List.isEmpty_iff.mp hc, List.nil_append, List.flatten_cons]
    · rw [if_neg hc]
      split
      · rw [List.map_cons, List.flatten_cons, nonWs_append,
          mkSentChunk_content, nonWs_strip, ih, List.flatten_cons,
          nonWs_append, nonWs_append, nonWs_append]
      · rw [ih, List.flatten_cons, nonWs_append, nonWs_append, nonWs_append,
          nonWs_cons_ws ' ' s (by rfl), nonWs_append, List.append_assoc]

/-- Non-whitespace characters of the concatenated sentence chunks are
exactly those of the text. -/
theorem chunk_by_sentence_flatten_nonWs (cfg : TextChunker) (text : Str)
    (meta : Meta) :
    nonWs (((chunk_by_sentence cfg text meta).map
      (fun ch => ch.content)).flatten) = nonWs text := by
  rw [chunk_by_sentence, chunkBySentenceAux_flatten_nonWs, List.nil_append,
    splitSentences]
  have := splitSentencesAux_flatten_nonWs text [] false
  rw [List.reverse_nil, List.nil_append] at this
  exact this

/-- The pieces returned by `runSplit` are sub-sequences of the (whitespace)
run, hence whitespace-only. -/
theorem runSplit_ws (run pre post : Str)
    (h : runSplit run = some (pre, post))
    (hall : ∀ c ∈ run, isPySpace c = true) :
    nonWs pre = [] ∧ nonWs post = [] := by
  simp only [runSplit] at h
  split at h
  · rename_i i1 i2 heq1 heq2
    split at h
    · injection h with h'
      injection h' with h1 h2
      subst h1
      subst h2
      constructor
      · exact nonWs_eq_nil_of_all_ws _
          (fun c hc => hall c (List.take_subset _ _ hc))
      · exact nonWs_eq_nil_of_all_ws _
          (fun c hc => hall c (List.drop_subset _ _ hc))
    · cases h
  · cases h

/-- The paragraph split loses only whitespace (the separators are whitespace
runs). -/
theorem splitParagraphsAux_flatten_nonWs :
    ∀ (rest acc run : Str), (∀ c ∈ run, isPySpace c = true) →
      nonWs ((splitParagraphsAux rest acc run).flatten) =
        nonWs (acc ++ rest) := by
  intro rest
  induction rest with
  | nil =>
    intro acc run hrun
    simp only [splitParagraphsAux]
    split
    · rename_i pre post heq
      obtain ⟨hpre, hpost⟩ := runSplit_ws run pre post heq hrun
      rw [List.flatten_cons, List.flatten_cons, List.flatten_nil,
        List.append_nil, nonWs_append, nonWs_append, hpre, hpost,
        List.append_nil, List.append_nil, List.append_nil]
    · rename_i heq
      rw [List.flatten_cons, List.flatten_nil, List.append_nil]
      simp [nonWs_append, nonWs_eq_nil_of_all_ws run hrun]
  | cons c rest ih =>
    intro acc run hrun
    simp only [splitParagraphsAux]
    by_cases hcw : isPySpace c = true
    · rw [if_pos hcw]
      rw [ih acc (run ++ [c]) (by
        intro d hd
        rcases List.mem_append.mp hd with hd' | hd'
        · exact hrun d hd'
        · rw [List.mem_singleton.mp hd']
          exact hcw)]
      rw [nonWs_append, nonWs_append, nonWs_cons_ws c rest hcw]
    · rw [if_neg hcw]
      split
      · rename_i pre post heq
        obtain ⟨hpre, hpost⟩ := runSplit_ws run pre post heq hrun
        have hc : isPySpace c = false := by simpa using hcw
        rw [List.flatten_cons, nonWs_append,
          ih (post ++ [c]) [] (fun d hd => by cases hd)]
        simp [nonWs_append, hpre, hpost, nonWs_cons_nonws c rest hc,
          nonWs_cons_nonws c [] hc]
      · rename_i heq
        have hc : isPySpace c = false := by simpa using hcw
        rw [ih (acc ++ run ++ [c]) [] (fun d hd => by cases hd)]
        simp [nonWs_append, nonWs_eq_nil_of_all_ws run hrun,
          nonWs_cons_nonws c rest hc, nonWs_cons_nonws c [] hc]

/-- Re-identification of paragraph sub-chunks does not change contents. -/
theorem remapParaSub_contents (cid cidx : Nat) (sub : List Chunk) :
    (remapParaSub cid cidx sub).map (fun ch => ch.content) =
      sub.map (fun ch => ch.content) := by
  rw [remapParaSub, List.map_map]
  have h1 : ((fun ch : Chunk => ch.content) ∘ (fun p : Nat × Chunk =>
      { p.2 with
          id := ("para_chunk_".data ++ natStr cid ++ '_' :: natStr p.1),
          start_index := p.2.start_index + cidx,
          end_index := p.2.end_index + cidx })) =
      ((fun ch : Chunk => ch.content) ∘ Prod.snd) := rfl
  rw [h1, ← List.map_map, List.enum_map_snd]

/-- The paragraph loop loses only whitespace relative to the concatenated
paragraph pieces. -/
theorem chunkByParagraphAux_flatten_nonWs (cfg : TextChunker) (meta : Meta) :
    ∀ (ps : List Str) (cid cidx : Nat),
      nonWs (((chunkByParagraphAux cfg meta ps cid cidx).map
        (fun ch => ch.content)).flatten) = nonWs ps.flatten := by
  intro ps
  induction ps with
  | nil => intro cid cidx; rfl
  | cons p ps ih =>
    intro cid cidx
    simp only [chunkByParagraphAux]
    have hps : nonWs p = nonWs (strip p) := (nonWs_strip p).symm
    by_cases h1 : (strip p).isEmpty = true
    · rw [if_pos h1, ih, List.flatten_cons, nonWs_append, hps,
        List.isEmpty_iff.mp h1]
      rfl
    · rw [if_neg h1]
      by_cases h2 : (strip p).length ≤ cfg.chunk_size
      · rw [if_pos h2, List.map_cons, List.flatten_cons, nonWs_append, ih,
          List.flatten_cons, nonWs_append, hps]
      · rw [if_neg h2, List.map_append, List.flatten_append, nonWs_append,
          remapParaSub_contents, chunk_by_sentence_flatten_nonWs, ih,
          List.flatten_cons, nonWs_append, hps]

/-- Non-whitespace characters of the concatenated paragraph chunks are
exactly those of the text. -/
theorem chunk_by_paragraph_flatten_nonWs (cfg : TextChunker) (text : Str)
    (meta : Meta) :
    nonWs (((chunk_by_paragraph cfg text meta).map
      (fun ch => ch.content)).flatten) = nonWs text := by
  rw [chunk_by_paragraph, chunkByParagraphAux_flatten_nonWs, splitParagraphs]
  have := splitParagraphsAux_flatten_nonWs text [] [] (fun d hd => by cases hd)
  rw [List.nil_append] at this
  -- the flatten of the pieces has the same non-whitespace characters as text
  calc nonWs (splitParagraphsAux text [] []).flatten
      = nonWs text := this

/-- C5: with a zero-overlap character-based strategy the chunk contents,
concatenated in input order, reproduce the original text up to whitespace
stripped at sentence/paragraph boundaries — fixed-size with `overlap = 0`
reproduces the text exactly, and the sentence and paragraph strategies
preserve every non-whitespace character in order (only boundary whitespace
is normalised or stripped). -/
theorem zero_overlap_coverage (cfg : TextChunker) (text : Str) (meta : Meta)
    (hov : cfg.overlap = 0) (hcs : 1 ≤ cfg.chunk_size) :
    (((chunk_fixed_size cfg text meta).map
      (fun ch => ch.content)).flatten = text) ∧
    (nonWs (((chunk_by_sentence cfg text meta).map
      (fun ch => ch.content)).flatten) = nonWs text) ∧
    (nonWs (((chunk_by_paragraph cfg text meta).map
      (fun ch => ch.content)).flatten) = nonWs text) := by
  refine ⟨?_, chunk_by_sentence_flatten_nonWs cfg text meta,
    chunk_by_paragraph_flatten_nonWs cfg text meta⟩
  rw [chunk_fixed_size,
    chunkFixedAux_flatten cfg meta text hov hcs _ 0 0 (by omega)]
  rfl

/-- Witness for `zero_overlap_coverage` on the text `"ab. cd\n\nef"` with
`chunk_size = 5`, `overlap = 0`. -/
theorem zero_overlap_coverage_witness :
    ((((chunk_fixed_size cfgSmall "ab. cd\n\nef".data []).map
      (fun ch => ch.content)).flatten = "ab. cd\n\nef".data) ∧
    (nonWs (((chunk_by_sentence cfgSmall "ab. cd\n\nef".data []).map
      (fun ch => ch.content)).flatten) = nonWs "ab. cd\n\nef".data) ∧
    (nonWs (((chunk_by_paragraph cfgSmall "ab. cd\n\nef".data []).map
      (fun ch => ch.content)).flatten) = nonWs "ab. cd\n\nef".data)) :=
  zero_overlap_coverage cfgSmall "ab. cd\n\nef".data [] rfl (by decide)

/-! ## Forward progress (C8) -/

/-- Every chunk the fixed-size loop emits from position `start` starts at or
after `start`. -/
theorem chunkFixedAux_start_lb (cfg : TextChunker) (meta : Meta)
    (text : Str) :
    ∀ fuel start cid, ∀ ch ∈ chunkFixedAux cfg meta text fuel start cid,
      start ≤ ch.start_index := by
  intro fuel
  induction fuel with
  | zero => intro start cid ch hch; cases hch
  | succ fuel ih =>
    intro start cid ch hch
    rw [chunkFixedAux] at hch
    by_cases hs : start < text.length
    · rw [if_pos hs] at hch
      rcases List.mem_cons.mp hch with rfl | hch'
      · exact le_refl start
      · have := ih _ _ ch hch'
        have h2 : start + 1 ≤ max
            (fixedEnd text start (min (start + cfg.chunk_size) text.length)
              - cfg.overlap) (start + 1) := Nat.le_max_right _ _
        omega
    · rw [if_neg hs] at hch; cases hch

/-- The fixed-size loop always advances: successive chunks have strictly
increasing `start_index`, for every configuration (termination is
unconditional — the loop body forces `start` up by at least one). -/
theorem chunkFixedAux_chain (cfg : TextChunker) (meta : Meta) (text : Str) :
    ∀ fuel start cid,
      List.Chain' (fun a b => a.start_index < b.start_index)
        (chunkFixedAux cfg meta text fuel start cid) := by
  intro fuel
  induction fuel with
  | zero => intro start cid; exact List.chain'_nil
  | succ fuel ih =>
    intro start cid
    rw [chunkFixedAux]
    by_cases hs : start < text.length
    · rw [if_pos hs]
      rw [List.chain'_cons']
      refine ⟨?_, ih _ _⟩
      intro b hb
      have hmem : b ∈ chunkFixedAux cfg meta text fuel
          (max (fixedEnd text start (min (start + cfg.chunk_size) text.length)
            - cfg.overlap) (start + 1)) (cid + 1) :=
        List.mem_of_mem_head? hb
      have := chunkFixedAux_start_lb cfg meta text fuel _ _ b hmem
      have h2 : start + 1 ≤ max
          (fixedEnd text start (min (start + cfg.chunk_size) text.length)
            - cfg.overlap) (start + 1) := Nat.le_max_right _ _
      show start < b.start_index
      omega
    · rw [if_neg hs]
      exact List.chain'_nil

theorem flatLen_mono (tokens : List Str) (a b : Nat) (h : a ≤ b) :
    flatLen tokens a ≤ flatLen tokens b := by
  rw [flatLen, flatLen]
  have h1 : (tokens.take b).take a = tokens.take a := by
    rw [List.take_take]
    congr 1
    omega
  have h2 : tokens.take a ++ (tokens.take b).drop a = tokens.take b := by
    rw [← h1]
    exact List.take_append_drop a (tokens.take b)
  calc (tokens.take a).flatten.length
      ≤ (tokens.take a).flatten.length +
          ((tokens.take b).drop a).flatten.length := by omega
    _ = (tokens.take b).flatten.length := by
        rw [← List.length_append, ← List.flatten_append, h2]

/-- With every token decoding to a non-empty string, a strictly larger token
prefix decodes to a strictly longer string. -/
theorem flatLen_strict (tokens : List Str) (a b : Nat) (hab : a < b)
    (hb : b ≤ tokens.length) (htok : ∀ t ∈ tokens, t ≠ []) :
    flatLen tokens a < flatLen tokens b := by
  have h1 : (tokens.take b).take a = tokens.take a := by
    rw [List.take_take]
    congr 1
    omega
  have h2 : tokens.take a ++ (tokens.take b).drop a = tokens.take b := by
    rw [← h1]
    exact List.take_append_drop a (tokens.take b)
  have hseglen : ((tokens.take b).drop a).length = b - a := by
    rw [List.length_drop, List.length_take]
    omega
  obtain ⟨t, rest, hseg⟩ : ∃ t rest, (tokens.take b).drop a = t :: rest := by
    cases hs : (tokens.take b).drop a with
    | nil =>
      rw [hs] at hseglen
      simp at hseglen
      omega
    | cons t rest => exact ⟨t, rest, rfl⟩
  have htmem : t ∈ tokens := by
    have ht : t ∈ (tokens.take b).drop a := by
      rw [hseg]
      exact List.mem_cons_self _ _
    exact List.take_subset _ _ (List.drop_subset _ _ ht)
  have hpos : 1 ≤ ((tokens.take b).drop a).flatten.length := by
    rw [hseg, List.flatten_cons, List.length_append]
    have h0 : 0 < t.length := List.length_pos.mpr (htok t htmem)
    omega
  rw [flatLen, flatLen, ← h2, List.flatten_append, List.length_append]
  omega

/-- The token window loop terminates (with fuel linear in the remaining
tokens, since `chunk_size ≥ 1` forces the start token up each iteration) and
produces chunks with strictly increasing `start_index`. -/
theorem chunkByTokensAux_progress (cfg : TextChunker) (meta : Meta)
    (tokens : List Str) (hcs : 1 ≤ cfg.chunk_size)
    (htok : ∀ t ∈ tokens, t ≠ []) :
    ∀ fuel start cid, tokens.length - start < fuel →
      ∃ l, chunkByTokensAux cfg meta tokens fuel start cid = some l ∧
        (∀ ch ∈ l, flatLen tokens start ≤ ch.start_index) ∧
        List.Chain' (fun a b => a.start_index < b.start_index) l := by
  intro fuel
  induction fuel with
  | zero => intro start cid h; omega
  | succ fuel ih =>
    intro start cid h
    by_cases hs : start < tokens.length
    · have hlen : ((tokens.drop start).take
          (min (start + cfg.chunk_size) tokens.length - start)).length =
          min (start + cfg.chunk_size) tokens.length - start := by
        rw [List.length_take, List.length_drop]
        omega
      have hnext : start + 1 ≤
          min (start + cfg.chunk_size) tokens.length -
            min cfg.overlap
              (((tokens.drop start).take
                (min (start + cfg.chunk_size) tokens.length - start)).length
                  / 2) := by
        rw [hlen]
        omega
      have hble :
          min (start + cfg.chunk_size) tokens.length -
            min cfg.overlap
              (((tokens.drop start).take
                (min (start + cfg.chunk_size) tokens.length - start)).length
                  / 2) ≤ tokens.length := by
        rw [hlen]
        omega
      have hfuel : tokens.length -
          (min (start + cfg.chunk_size) tokens.length -
            min cfg.overlap
              (((tokens.drop start).take
                (min (start + cfg.chunk_size) tokens.length - start)).length
                  / 2)) < fuel := by
        omega
      obtain ⟨rest, hrest, hlb, hchain⟩ := ih
        (min (start + cfg.chunk_size) tokens.length -
          min cfg.overlap
            (((tokens.drop start).take
              (min (start + cfg.chunk_size) tokens.length - start)).length
                / 2))
        (cid + 1) hfuel
      have hwit : chunkByTokensAux cfg meta tokens (fuel + 1) start cid =
          some (tokenHeadChunk cfg meta tokens start cid :: rest) := by
        simp only [chunkByTokensAux]
        rw [if_pos hs, hrest]
        rfl
      refine ⟨_, hwit, ?_, ?_⟩
      · intro ch hch
        rcases List.mem_cons.mp hch with rfl | hch'
        · show flatLen tokens start ≤ ((tokens.take start).flatten).length
          exact le_refl _
        · refine le_trans (flatLen_mono tokens start
            (min (start + cfg.chunk_size) tokens.length -
              min cfg.overlap
                (((tokens.drop start).take
                  (min (start + cfg.chunk_size) tokens.length - start)).length
                    / 2)) (by omega)) (hlb ch hch')
      · rw [List.chain'_cons']
        refine ⟨?_, hchain⟩
        intro b hb
        have hbm := hlb b (List.mem_of_mem_head? hb)
        have hstrict := flatLen_strict tokens start
          (min (start + cfg.chunk_size) tokens.length -
            min cfg.overlap
              (((tokens.drop start).take
                (min (start + cfg.chunk_size) tokens.length - start)).length
                  / 2)) (by omega) hble htok
        show ((tokens.take start).flatten).length < b.start_index
        have hfl : flatLen tokens start =
            ((tokens.take start).flatten).length := rfl
        omega
    · refine ⟨[], ?_, fun ch hch => absurd hch (by simp),
        List.chain'_nil⟩
      simp only [chunkByTokensAux]
      rw [if_neg hs]

/-- C8: for every configuration with `chunk_size ≥ 1` (including pathological
`overlap ≥ chunk_size`), the fixed-size loop (which is total) and the
token-based loop terminate — the latter returning `some` chunk list — and
both produce chunks with strictly increasing `start_index` (the window
always advances).  The tokenizer hypothesis says every token decodes to a
non-empty string, so character offsets advance with the token window. -/
theorem window_forward_progress (cfg : TextChunker) (text : Str)
    (meta : Meta) (hcs : 1 ≤ cfg.chunk_size)
    (htok : ∀ t ∈ cfg.tokenizer.encode text, t ≠ []) :
    List.Chain' (fun a b => a.start_index < b.start_index)
      (chunk_fixed_size cfg text meta) ∧
    ∃ l, chunk_by_tokens cfg text meta = some l ∧
      List.Chain' (fun a b => a.start_index < b.start_index) l := by
  constructor
  · exact chunkFixedAux_chain cfg meta text _ 0 0
  · obtain ⟨l, hl, -, hchain⟩ := chunkByTokensAux_progress cfg meta
      (cfg.tokenizer.encode text) hcs htok
      ((cfg.tokenizer.encode text).length + 1) 0 0 (by omega)
    exact ⟨l, hl, hchain⟩

/-- Witness for `window_forward_progress`: a pathological configuration with
`overlap (100) ≥ chunk_size (1000 → here 5)` still advances. -/
theorem window_forward_progress_witness :
    (List.Chain' (fun a b => a.start_index < b.start_index)
      (chunk_fixed_size ⟨3, 7, charTok⟩ "abc def gh".data []) ∧
    ∃ l, chunk_by_tokens ⟨3, 7, charTok⟩ "abc def gh".data [] = some l ∧
      List.Chain' (fun a b => a.start_index < b.start_index) l) :=
  window_forward_progress ⟨3, 7, charTok⟩ "abc def gh".data [] (by decide)
    (by decide)
